import Mathlib

/-!
Verification of the task-dependency-graph compiler `entt::basic_flow`
(src/entt/graph/flow.hpp).

The recorder state (`FlowState`) mirrors the three data members of
`basic_flow`: the current-task index (`index`, with the `placeholder`
sentinel `std::numeric_limits<std::size_t>::max()`), the registered task
keys in first-seen order (`task`, the `dense_set` payload order), and the
per-resource access logs in key insertion order (`deps`, the `dense_map`
payload order with each value an append-ordered event vector).

The graph pipeline of `basic_flow::adjacency_matrix` is embedded on
`List Bool` exactly as the source's `std::vector<bool> edges(length *
length)` with index arithmetic `vi * length + vj`: Stage A edge synthesis
(`synAux`/`stageAEdges`), transitive closure (`closure`), diagonal
clearing (`clearDiag`) and in-place transitive reduction (`reduce`).
-/

set_option maxRecDepth 10000

namespace EnttFlow

/-- Sentinel for "no current task selected":
`std::numeric_limits<std::size_t>::max()` on a 64-bit `size_t`. -/
def placeholder : Nat := 2 ^ 64 - 1

/-- Recorder state of `basic_flow`: current task index, task registry in
first-seen order, and per-resource ordered access logs (task index paired
with the rw flag: `true` = write, `false` = read). -/
structure FlowState where
  index : Nat
  task : List Nat
  deps : List (Nat × List (Nat × Bool))
deriving DecidableEq

/-- Single error kind of the recorder: a resource access declared while no
task is selected. -/
inductive FlowError
  | invalidState
deriving DecidableEq

/-- A default-constructed `basic_flow`: empty registry, empty logs, and the
placeholder current-task index. -/
def initialFlow : FlowState := { index := placeholder, task := [], deps := [] }

/-- Position of the first occurrence of `value` in the registry, i.e. the
iterator distance `it - task.cbegin()` for the found element (the registry
of a `dense_set` iterates in insertion order).  Returns the length when the
value is absent. -/
def findIndex (value : Nat) : List Nat → Nat
  | [] => 0
  | t :: rest => if t = value then 0 else findIndex value rest + 1

/-- Embeds `basic_flow::task`: select the current task.  An unseen key gets
index `task.size()` and is registered; a seen key reuses its first-seen
position.  The returned state is the recorder itself after the call. -/
def task (s : FlowState) (value : Nat) : FlowState :=
  if value ∈ s.task then { s with index := findIndex value s.task }
  else { s with index := s.task.length, task := s.task ++ [value] }

/-- Embeds `deps[res].push_back(ev)` on the insertion-ordered `dense_map`:
append to the log of an existing key, or add the key at the end with a
singleton log. -/
def depsPush (res : Nat) (ev : Nat × Bool) :
    List (Nat × List (Nat × Bool)) → List (Nat × List (Nat × Bool))
  | [] => [(res, [ev])]
  | d :: rest =>
    if d.1 = res then (d.1, d.2 ++ [ev]) :: rest else d :: depsPush res ev rest

/-- Embeds `basic_flow::ro`.  Modelled from the spec: `ENTT_ASSERT` lives in
`config/config.h`, which is not part of the given sources; per the spec
(§4.1, §7) a declaration with no selected task fails fast with the
InvalidState condition and must leave the resource logs untouched, so the
assertion is modelled as an abort that produces no successor state. -/
def ro (s : FlowState) (res : Nat) : Except FlowError FlowState :=
  if s.index = placeholder then Except.error FlowError.invalidState
  else Except.ok { s with deps := depsPush res (s.index, false) s.deps }

/-- Embeds `basic_flow::rw`; same InvalidState modelling as `ro`. -/
def rw (s : FlowState) (res : Nat) : Except FlowError FlowState :=
  if s.index = placeholder then Except.error FlowError.invalidState
  else Except.ok { s with deps := depsPush res (s.index, true) s.deps }

/-- Embeds `basic_flow::clear`: reset the current-task index to the
placeholder and empty the registry and the logs. -/
def clear (s : FlowState) : FlowState :=
  { s with index := placeholder, task := [], deps := [] }

/-- One builder call on the recorder. -/
inductive FlowOp
  | task : Nat → FlowOp
  | ro : Nat → FlowOp
  | rw : Nat → FlowOp
deriving DecidableEq

/-- Apply one builder call. -/
def applyOp (s : FlowState) : FlowOp → Except FlowError FlowState
  | FlowOp.task v => Except.ok (task s v)
  | FlowOp.ro r => ro s r
  | FlowOp.rw r => rw s r

/-- Apply a chain of builder calls in order. -/
def applyOps : FlowState → List FlowOp → Except FlowError FlowState
  | s, [] => Except.ok s
  | s, op :: rest =>
    match applyOp s op with
    | Except.ok t => applyOps t rest
    | Except.error e => Except.error e

/-- Recorder state reached from a fresh `basic_flow` by a chain of calls
(falling back to the fresh state if the chain aborts). -/
def stateOf (ops : List FlowOp) : FlowState :=
  match applyOps initialFlow ops with
  | Except.ok s => s
  | Except.error _ => initialFlow

/-- Stage A edge synthesis: the `while(it != last)` loop of
`basic_flow::adjacency_matrix` over one resource log, with the iterator
replaced by the remaining suffix and the loop bounded by a fuel that the
wrapper `synEdges` instantiates with the log length (each iteration
consumes at least one event, so that fuel always suffices).  A `true`
second component is a write (`rw` item), `false` a read (`ro` item).
Emitted pairs are the `(from, to)` edges written into the matrix, in
emission order. -/
def synAux : Nat → List (Nat × Bool) → List (Nat × Nat)
  | 0, _ => []
  | _ + 1, [] => []
  | fuel + 1, (t, true) :: rest =>
    match rest with
    | [] => []
    | (u, true) :: _ => (t, u) :: synAux fuel rest
    | (_, false) :: _ =>
      let reads := rest.takeWhile (fun e => !e.2)
      let rest1 := rest.dropWhile (fun e => !e.2)
      match rest1 with
      | [] => reads.map (fun r => (t, r.1))
      | w :: _ => (reads.map (fun r => [(t, r.1), (r.1, w.1)])).flatten ++ synAux fuel rest1
  | fuel + 1, (t, false) :: rest =>
    let reads := (t, false) :: rest.takeWhile (fun e => !e.2)
    let rest1 := rest.dropWhile (fun e => !e.2)
    match rest1 with
    | [] => []
    | w :: _ => reads.map (fun r => (r.1, w.1)) ++ synAux fuel rest1

/-- Edges synthesized from one resource log. -/
def synEdges (log : List (Nat × Bool)) : List (Nat × Nat) := synAux log.length log

/-- Read entry `p` of the flattened boolean matrix (out-of-range reads the
vector default `false`). -/
def mget (edges : List Bool) (p : Nat) : Bool := edges.getD p false

/-- Write the synthesized edges of one resource into the flattened matrix:
`edges[e.first * length + e.second] = true` in emission order. -/
def applyEdges (n : Nat) (edges : List Bool) (es : List (Nat × Nat)) : List Bool :=
  es.foldl (fun ed e => ed.set (e.1 * n + e.2) true) edges

/-- The adjacency matrix after Stage A: start from
`adjacency_matrix_type edges(length * length, false)` and write the edges
of every resource log, in `deps` iteration order. -/
def stageAEdges (n : Nat) (deps : List (Nat × List (Nat × Bool))) : List Bool :=
  deps.foldl (fun ed d => applyEdges n ed (synEdges d.2)) (List.replicate (n * n) false)

/-- Innermost loop of the transitive-closure pass (`vj` loop for fixed
`vk`, `vi`). -/
def fwJ (n vk vi : Nat) (edges : List Bool) : List Bool :=
  (List.range n).foldl
    (fun ed vj =>
      ed.set (vi * n + vj)
        (mget ed (vi * n + vj) || (mget ed (vi * n + vk) && mget ed (vk * n + vj))))
    edges

/-- Middle loop of the transitive-closure pass (`vi` loop for fixed `vk`). -/
def fwI (n vk : Nat) (edges : List Bool) : List Bool :=
  (List.range n).foldl (fun ed vi => fwJ n vk vi ed) edges

/-- Transitive closure exactly as the source's triple loop over `vk`, `vi`,
`vj`, updating the matrix in place. -/
def closure (n : Nat) (edges : List Bool) : List Bool :=
  (List.range n).foldl (fun ed vk => fwI n vk ed) edges

/-- Diagonal clearing: `edges[vert * length + vert] = false` for every
vertex. -/
def clearDiag (n : Nat) (edges : List Bool) : List Bool :=
  (List.range n).foldl (fun ed v => ed.set (v * n + v) false) edges

/-- Innermost loop of the transitive-reduction pass (`vk` loop for fixed
`vi`, `vj`): clear `edges[vi][vk]` whenever `edges[vj][vk]` currently
holds. -/
def redK (n vi vj : Nat) (edges : List Bool) : List Bool :=
  (List.range n).foldl
    (fun ed vk => if mget ed (vj * n + vk) then ed.set (vi * n + vk) false else ed)
    edges

/-- Middle loop of the transitive-reduction pass (`vi` loop for fixed
`vj`), guarded by the current `edges[vi][vj]`. -/
def redI (n vj : Nat) (edges : List Bool) : List Bool :=
  (List.range n).foldl (fun ed vi => if mget ed (vi * n + vj) then redK n vi vj ed else ed) edges

/-- Transitive reduction exactly as the source's in-place loops over `vj`,
`vi`, `vk`. -/
def reduce (n : Nat) (edges : List Bool) : List Bool :=
  (List.range n).foldl (fun ed vj => redI n vj ed) edges

/-- The full graph compilation of `basic_flow::adjacency_matrix`: Stage A
synthesis, transitive closure, diagonal clearing, transitive reduction. -/
def adjacency (s : FlowState) : List Bool :=
  reduce s.task.length (clearDiag s.task.length (closure s.task.length
    (stageAEdges s.task.length s.deps)))

/-- Direct edge `i → j` of the final compiled graph. -/
def edgeAt (s : FlowState) (i j : Nat) : Bool :=
  mget (adjacency s) (i * s.task.length + j)

/-- Reachability `i → j` obtained by recomputing the transitive closure on
the final compiled graph. -/
def reachAt (s : FlowState) (i j : Nat) : Bool :=
  mget (closure s.task.length (adjacency s)) (i * s.task.length + j)

/-- Entry `i → j` of the Stage A matrix, before closure and reduction. -/
def stageAt (s : FlowState) (i j : Nat) : Bool :=
  mget (stageAEdges s.task.length s.deps) (i * s.task.length + j)

/-- Entry `i → j` of the transitive closure of the Stage A matrix. -/
def synClosureAt (s : FlowState) (i j : Nat) : Bool :=
  mget (closure s.task.length (stageAEdges s.task.length s.deps)) (i * s.task.length + j)

/-- The Stage A edge relation of a recorder state, as a relation on task
indices: some resource log synthesizes the edge `a → b`. -/
def SynEdge (s : FlowState) (a b : Nat) : Prop :=
  ∃ d ∈ s.deps, (a, b) ∈ synEdges d.2

/-- Diamond scenario calls: A writes R, B and C read R, D writes R. -/
def diamondOps : List FlowOp :=
  [FlowOp.task 10, FlowOp.rw 7, FlowOp.task 11, FlowOp.ro 7,
   FlowOp.task 12, FlowOp.ro 7, FlowOp.task 13, FlowOp.rw 7]

/-- Recorder state of the diamond scenario (A = 0, B = 1, C = 2, D = 3). -/
def diamondState : FlowState := stateOf diamondOps

/-- Write-chain scenario calls: A, B, C each write R, in that order. -/
def chainOps : List FlowOp :=
  [FlowOp.task 10, FlowOp.rw 7, FlowOp.task 11, FlowOp.rw 7, FlowOp.task 12, FlowOp.rw 7]

/-- Recorder state of the write-chain scenario (A = 0, B = 1, C = 2). -/
def chainState : FlowState := stateOf chainOps

/-- Calls for a state in which one task writes the same resource twice. -/
def doubleWriteOps : List FlowOp := [FlowOp.task 10, FlowOp.rw 7, FlowOp.rw 7]

/-- Recorder state in which task 0 writes resource 7 twice. -/
def doubleWriteState : FlowState := stateOf doubleWriteOps

/-- Independent-task scenario calls: X reads foo and writes bar, Y reads
foo and reads quux. -/
def indepOps : List FlowOp :=
  [FlowOp.task 20, FlowOp.ro 100, FlowOp.rw 101,
   FlowOp.task 21, FlowOp.ro 100, FlowOp.ro 102]

/-- Recorder state of the independent-task scenario (X = 0, Y = 1). -/
def indepState : FlowState := stateOf indepOps

/-- Position returned by `findIndex` is a valid index whenever the value is
present. -/
theorem findIndex_lt_length (value : Nat) :
    ∀ l : List Nat, value ∈ l → findIndex value l < l.length := by
  intro l
  induction l with
  | nil => intro h; cases h
  | cons t rest ih =>
    intro h
    by_cases ht : t = value
    · simp [findIndex, ht]
    · have hmem : value ∈ rest := by
        rcases List.mem_cons.mp h with h1 | h1
        · exact absurd h1.symm ht
        · exact h1
      simp only [findIndex, ht, if_false, List.length_cons]
      exact Nat.succ_lt_succ (ih hmem)

/-- Appending an unseen value places it at position `l.length`. -/
theorem findIndex_append_self (value : Nat) :
    ∀ l : List Nat, value ∉ l → findIndex value (l ++ [value]) = l.length := by
  intro l
  induction l with
  | nil => intro _; simp [findIndex]
  | cons t rest ih =>
    intro h
    have ht : t ≠ value := by
      intro he
      exact h (by rw [he]; exact List.mem_cons_self value rest)
    have hrest : value ∉ rest := fun hm => h (List.mem_cons_of_mem t hm)
    simp [findIndex, ht, ih hrest]

/-- Appending a fresh value preserves freedom from duplicates. -/
theorem nodup_append_single (value : Nat) (l : List Nat) (hn : l.Nodup)
    (hm : value ∉ l) : (l ++ [value]).Nodup := by
  simp [List.nodup_append, hn, hm]

/-- C9: `task` on an unseen key assigns it the index `task.size()` and
registers it; on a seen key it reuses the key's first-seen position and
leaves the registry unchanged; the resource logs are untouched, the
returned recorder has the key registered with its index equal to the key's
position in the registry (dense, zero-based, first-seen order), and a
duplicate-free registry stays duplicate-free. -/
theorem flow_task_contract : ∀ (s : FlowState) (value : Nat),
    (task s value).deps = s.deps ∧
    value ∈ (task s value).task ∧
    (task s value).index = findIndex value (task s value).task ∧
    (value ∈ s.task →
      (task s value).task = s.task ∧ (task s value).index = findIndex value s.task) ∧
    (value ∉ s.task →
      (task s value).task = s.task ++ [value] ∧ (task s value).index = s.task.length) ∧
    (s.task.Nodup → (task s value).task.Nodup) := by
  intro s value
  by_cases h : value ∈ s.task
  · have ht : task s value = { s with index := findIndex value s.task } := by
      simp [task, h]
    rw [ht]
    exact ⟨rfl, h, rfl, fun _ => ⟨rfl, rfl⟩, fun hn => absurd h hn, fun hn => hn⟩
  · have ht : task s value =
        { s with index := s.task.length, task := s.task ++ [value] } := by
      simp [task, h]
    rw [ht]
    exact ⟨rfl, by simp, (findIndex_append_self value s.task h).symm,
      fun hmem => absurd hmem h, fun _ => ⟨rfl, rfl⟩,
      fun hn => nodup_append_single value s.task hn h⟩

/-- Witness for C9 at a concrete recorder: registering key 5 twice on a
fresh recorder yields index 0 both times and a single registry entry. -/
theorem flow_task_contract_witness :
    (task initialFlow 5).index = 0 ∧ (task initialFlow 5).task = [5] ∧
    (task (task initialFlow 5) 5).index = 0 ∧
    (task (task initialFlow 5) 5).task = [5] := by
  have h1 := flow_task_contract initialFlow 5
  have h2 := flow_task_contract (task initialFlow 5) 5
  have hu := h1.2.2.2.2.1 (by decide)
  have hs := h2.2.2.2.1 (by rw [hu.1]; decide)
  refine ⟨?_, ?_, ?_, ?_⟩
  · rw [hu.2]; rfl
  · rw [hu.1]; rfl
  · rw [hs.2, hu.1]; rfl
  · rw [hs.1, hu.1]; rfl

/-- C8: declaring a read-only or a writable resource while no current task
is selected (the index holds the placeholder) raises InvalidState; no
successor recorder state is produced, so no resource log is touched. -/
theorem flow_invalid_state : ∀ (s : FlowState) (res : Nat), s.index = placeholder →
    ro s res = Except.error FlowError.invalidState ∧
    rw s res = Except.error FlowError.invalidState := by
  intro s res h
  exact ⟨by simp [ro, h], by simp [rw, h]⟩

/-- Witness for C8: a fresh recorder rejects both declarations. -/
theorem flow_invalid_state_witness :
    ro initialFlow 7 = Except.error FlowError.invalidState ∧
    rw initialFlow 7 = Except.error FlowError.invalidState :=
  flow_invalid_state initialFlow 7 rfl

/-- C10: `clear` resets the current-task index to the placeholder sentinel
(beside emptying the registry and the logs), so a read or write declaration
immediately after `clear`, with no intervening task selection, raises
InvalidState even if a task had been selected before. -/
theorem flow_clear_resets : ∀ (s : FlowState) (res : Nat),
    (clear s).index = placeholder ∧ (clear s).task = [] ∧ (clear s).deps = [] ∧
    ro (clear s) res = Except.error FlowError.invalidState ∧
    rw (clear s) res = Except.error FlowError.invalidState := by
  intro s res
  exact ⟨rfl, rfl, rfl, by simp [ro, clear], by simp [rw, clear]⟩

/-- C1: in the diamond scenario (A writes R, then B and C read R, then D
writes R) the compiled minimal graph has exactly the edges A→B, A→C, B→D,
C→D; in particular no edge between B and C in either direction and no
direct edge A→D. -/
theorem flow_diamond :
    applyOps initialFlow diamondOps = Except.ok diamondState ∧
    diamondState.task.length = 4 ∧
    edgeAt diamondState 0 1 = true ∧ edgeAt diamondState 0 2 = true ∧
    edgeAt diamondState 1 3 = true ∧ edgeAt diamondState 2 3 = true ∧
    edgeAt diamondState 1 2 = false ∧ edgeAt diamondState 2 1 = false ∧
    edgeAt diamondState 0 3 = false ∧
    edgeAt diamondState 0 0 = false ∧ edgeAt diamondState 1 1 = false ∧
    edgeAt diamondState 2 2 = false ∧ edgeAt diamondState 3 3 = false ∧
    edgeAt diamondState 1 0 = false ∧ edgeAt diamondState 2 0 = false ∧
    edgeAt diamondState 3 0 = false ∧ edgeAt diamondState 3 1 = false ∧
    edgeAt diamondState 3 2 = false :=
  ⟨rfl, rfl, rfl, rfl, rfl, rfl, rfl, rfl, rfl, rfl, rfl, rfl, rfl, rfl, rfl,
   rfl, rfl, rfl⟩

/-- C2: in the write-chain scenario (A, B, C each write R in that order)
the compiled minimal graph has the edges A→B and B→C but not the direct
edge A→C, while the transitive closure recomputed on that minimal graph
still reports that A reaches C. -/
theorem flow_write_chain :
    applyOps initialFlow chainOps = Except.ok chainState ∧
    chainState.task.length = 3 ∧
    edgeAt chainState 0 1 = true ∧ edgeAt chainState 1 2 = true ∧
    edgeAt chainState 0 2 = false ∧
    reachAt chainState 0 2 = true :=
  ⟨rfl, rfl, rfl, rfl, rfl, rfl⟩

/-- Counterexample to C5 as stated: in the recorder state where task 0
declares two writes on resource 7, Stage A synthesizes the self-loop edge
0→0, so the synthesized relation is not acyclic for every recorder
state. -/
theorem flow_stageA_cycle_cex :
    doubleWriteState.deps = [(7, [(0, true), (0, true)])] ∧
    (0, 0) ∈ synEdges [(0, true), (0, true)] ∧
    stageAt doubleWriteState 0 0 = true := by
  refine ⟨rfl, ?_, rfl⟩
  decide

/-- An element at the head of the suffix dropped by `dropWhile` fails the
predicate. -/
theorem dropWhile_head_false {α : Type} (p : α → Bool) :
    ∀ (l : List α) (w : α) (rest3 : List α), l.dropWhile p = w :: rest3 → p w = false := by
  intro l
  induction l with
  | nil => intro w r3 hd; simp [List.dropWhile] at hd
  | cons x xs ih =>
    intro w r3 hd
    rw [List.dropWhile_cons] at hd
    by_cases hx : p x = true
    · rw [if_pos hx] at hd
      exact ih w r3 hd
    · rw [if_neg hx] at hd
      injection hd with h1 h2
      cases hpx : p x with
      | false => rw [← h1]; exact hpx
      | true => exact absurd hpx hx

/-- Every Stage A edge joins the task of one event to the task of a
strictly later event of the same log, and at least one of the two events
is a write: the sublist `[ea, eb]` of the log carries the two events in
chronological order. -/
theorem synAux_between : ∀ (fuel : Nat) (l : List (Nat × Bool)) (a b : Nat),
    (a, b) ∈ synAux fuel l →
    ∃ ea eb : Nat × Bool, List.Sublist [ea, eb] l ∧ ea.1 = a ∧ eb.1 = b ∧
      (ea.2 = true ∨ eb.2 = true) := by
  intro fuel
  induction fuel with
  | zero => intro l a b h; simp [synAux] at h
  | succ fuel ih =>
    intro l a b h
    rcases l with _ | ⟨⟨t, tb⟩, rest⟩
    · simp [synAux] at h
    cases tb
    · simp only [synAux] at h
      rcases hd : List.dropWhile (fun e => !e.2) rest with _ | ⟨w, rest3⟩
      · rw [hd] at h
        simp at h
      · rw [hd] at h
        have hw2 : w.2 = true := by
          have hfalse := dropWhile_head_false (fun e : Nat × Bool => !e.2) _ _ _ hd
          simpa using hfalse
        have hwrest : w ∈ rest := by
          have hds := List.dropWhile_sublist (l := rest) (fun e : Nat × Bool => !e.2)
          rw [hd] at hds
          exact hds.subset (List.mem_cons_self _ _)
        rcases List.mem_append.mp h with h | h
        · rcases List.mem_map.mp h with ⟨r, hr, heq⟩
          injection heq with ha hb
          rcases List.mem_cons.mp hr with hrt | hrtw
          · refine ⟨r, w, ?_, ha, hb, Or.inr hw2⟩
            rw [hrt]
            exact List.Sublist.cons₂ _ (List.singleton_sublist.mpr hwrest)
          · refine ⟨r, w, ?_, ha, hb, Or.inr hw2⟩
            have happ := List.Sublist.append
              (List.singleton_sublist.mpr hrtw)
              (List.singleton_sublist.mpr
                (show w ∈ List.dropWhile (fun e : Nat × Bool => !e.2) rest by
                  rw [hd]; exact List.mem_cons_self _ _))
            rw [List.takeWhile_append_dropWhile] at happ
            exact List.Sublist.cons _ happ
        · rcases ih _ a b h with ⟨ea, eb, hs, h1, h2, h3⟩
          have hds := List.dropWhile_sublist (l := rest) (fun e : Nat × Bool => !e.2)
          rw [hd] at hds
          exact ⟨ea, eb, List.Sublist.cons _ (hs.trans hds), h1, h2, h3⟩
    · rcases rest with _ | ⟨⟨u, ub⟩, rest2⟩
      · simp [synAux] at h
      cases ub
      · simp only [synAux] at h
        rcases hd : List.dropWhile (fun e => !e.2) ((u, false) :: rest2) with _ | ⟨w, rest3⟩
        · rw [hd] at h
          rcases List.mem_map.mp h with ⟨r, hr, heq⟩
          injection heq with ha hb
          exact ⟨(t, true), r,
            List.Sublist.cons₂ _ (List.singleton_sublist.mpr
              ((List.takeWhile_sublist _).subset hr)),
            ha, hb, Or.inl rfl⟩
        · rw [hd] at h
          have hw2 : w.2 = true := by
            have hfalse := dropWhile_head_false (fun e : Nat × Bool => !e.2) _ _ _ hd
            simpa using hfalse
          rcases List.mem_append.mp h with h | h
          · rcases List.mem_flatten.mp h with ⟨lst, hlst, hmem⟩
            rcases List.mem_map.mp hlst with ⟨r, hr, hlsteq⟩
            have hrrest : List.Sublist [r] ((u, false) :: rest2) :=
              List.singleton_sublist.mpr ((List.takeWhile_sublist _).subset hr)
            rw [← hlsteq] at hmem
            rcases List.mem_cons.mp hmem with heq | hmem2
            · injection heq with ha hb
              exact ⟨(t, true), r, List.Sublist.cons₂ _ hrrest, ha.symm, hb.symm, Or.inl rfl⟩
            · rcases List.mem_cons.mp hmem2 with heq | hnil
              · injection heq with ha hb
                have hrw : List.Sublist [r, w] ((u, false) :: rest2) := by
                  have happ := List.Sublist.append
                    (List.singleton_sublist.mpr hr)
                    (List.singleton_sublist.mpr
                      (show w ∈ List.dropWhile (fun e : Nat × Bool => !e.2)
                          ((u, false) :: rest2) by
                        rw [hd]; exact List.mem_cons_self _ _))
                  rw [List.takeWhile_append_dropWhile] at happ
                  exact happ
                exact ⟨r, w, List.Sublist.cons _ hrw, ha.symm, hb.symm, Or.inr hw2⟩
              · simp at hnil
          · rcases ih _ a b h with ⟨ea, eb, hs, h1, h2, h3⟩
            have hds := List.dropWhile_sublist (l := (u, false) :: rest2)
              (fun e : Nat × Bool => !e.2)
            rw [hd] at hds
            exact ⟨ea, eb, List.Sublist.cons _ (hs.trans hds), h1, h2, h3⟩
      · simp only [synAux, List.mem_cons] at h
        rcases h with h | h
        · injection h with ha hb
          exact ⟨(t, true), (u, true),
            List.Sublist.cons₂ _ (List.Sublist.cons₂ _ (List.nil_sublist _)),
            ha.symm, hb.symm, Or.inl rfl⟩
        · rcases ih _ a b h with ⟨ea, eb, hs, h1, h2, h3⟩
          exact ⟨ea, eb, List.Sublist.cons _ hs, h1, h2, h3⟩

/-- A task only reads within a log when every one of its events there is a
read. -/
def ReadsOnly (log : List (Nat × Bool)) (x : Nat) : Prop :=
  ∀ e ∈ log, e.1 = x → e.2 = false

instance (log : List (Nat × Bool)) (x : Nat) : Decidable (ReadsOnly log x) :=
  decidable_of_iff (∀ e ∈ log, e.1 = x → e.2 = false) Iff.rfl

/-- No synthesized edge connects two pure readers of a log: every Stage A
edge has a write at one of its two endpoints. -/
theorem synEdges_no_read_pair (log : List (Nat × Bool)) (x y : Nat)
    (hx : ReadsOnly log x) (hy : ReadsOnly log y) : (x, y) ∉ synEdges log := by
  intro hmem
  rcases synAux_between log.length log x y hmem with ⟨ea, eb, hs, h1, h2, h3⟩
  have hamem : ea ∈ log := hs.subset (List.mem_cons_self _ _)
  have hbmem : eb ∈ log := hs.subset (List.mem_cons_of_mem _ (List.mem_cons_self _ _))
  rcases h3 with h3 | h3
  · rw [hx ea hamem h1] at h3
    exact Bool.noConfusion h3
  · rw [hy eb hbmem h2] at h3
    exact Bool.noConfusion h3

/-- C7: if two distinct tasks only ever read a shared resource (neither
writes it), that resource's log synthesizes no edge between them in either
direction, so the compiled graph contains no edge between them attributable
to that resource. -/
theorem flow_read_parallel : ∀ (s : FlowState) (d : Nat × List (Nat × Bool)) (x y : Nat),
    d ∈ s.deps → x ≠ y → ReadsOnly d.2 x → ReadsOnly d.2 y →
    (x, y) ∉ synEdges d.2 ∧ (y, x) ∉ synEdges d.2 := by
  intro s d x y _ _ hx hy
  exact ⟨synEdges_no_read_pair d.2 x y hx hy, synEdges_no_read_pair d.2 y x hy hx⟩

/-- Witness for C7 at the independent-task scenario: tasks X = 0 and Y = 1
both only read resource 100, and its log synthesizes no edge between
them. -/
theorem flow_read_parallel_witness :
    (0, 1) ∉ synEdges [(0, false), (1, false)] ∧
    (1, 0) ∉ synEdges [(0, false), (1, false)] :=
  flow_read_parallel indepState (100, [(0, false), (1, false)]) 0 1
    (by decide) (by decide) (by decide) (by decide)

/-- C5 (amended): every Stage A edge i→j is synthesized from an event of
task i strictly before an event of task j within a single resource log;
consequently, whenever some measure `f` on task indices is strictly
increasing along every resource log of the state, every Stage A edge
strictly increases `f` and the Stage A relation is acyclic.  Over all
recorder states unconditionally the original claim is false: a task that
declares two writes on the same resource receives a self-loop (see the
counterexample `flow_stageA_cycle_cex`). -/
theorem flow_stageA_forward : ∀ (s : FlowState) (f : Nat → Nat),
    (∀ d ∈ s.deps, (d.2.map Prod.fst).Pairwise (fun a b => f a < f b)) →
    (∀ a b, SynEdge s a b → f a < f b) ∧
    (∀ x, ¬ Relation.TransGen (SynEdge s) x x) := by
  intro s f hf
  have hedge : ∀ a b, SynEdge s a b → f a < f b := by
    intro a b h
    obtain ⟨d, hd, hmem⟩ := h
    rcases synAux_between d.2.length d.2 a b hmem with ⟨ea, eb, hs, h1, h2, _⟩
    have hmap : List.Sublist [ea.1, eb.1] (d.2.map Prod.fst) := by
      have hm := List.Sublist.map Prod.fst hs
      simpa using hm
    have hpw := List.Pairwise.sublist hmap (hf d hd)
    have hlt := (List.pairwise_cons.mp hpw).1 eb.1 (List.mem_cons_self _ _)
    rw [h1, h2] at hlt
    exact hlt
  refine ⟨hedge, ?_⟩
  intro x hx
  have hlt : ∀ p q, Relation.TransGen (SynEdge s) p q → f p < f q := by
    intro p q hpq
    induction hpq with
    | single h => exact hedge _ _ h
    | tail _ h ihp => exact Nat.lt_trans ihp (hedge _ _ h)
  exact absurd (hlt x x hx) (Nat.lt_irrefl _)

/-- Witness for the amended C5 at the diamond state with the identity
measure: every resource log there is strictly increasing in task index, the
Stage A edge 0→1 strictly increases the measure, and no Stage A cycle
passes through task 0. -/
theorem flow_stageA_forward_witness :
    (0 : Nat) < 1 ∧ ¬ Relation.TransGen (SynEdge diamondState) 0 0 := by
  have h := flow_stageA_forward diamondState (fun x => x) (by decide)
  refine ⟨?_, h.2 0⟩
  exact h.1 0 1 ⟨(7, [(0, true), (1, false), (2, false), (3, true)]), by decide, by decide⟩

/-- Proof-side view of a matrix as a total boolean function on index
pairs. -/
def MatF : Type := Nat → Nat → Bool

/-- Functional single-entry update. -/
def msetF (m : MatF) (i j : Nat) (b : Bool) : MatF :=
  fun x y => if x = i ∧ y = j then b else m x y

/-- View of the flattened `length * length` boolean vector as a function
matrix. -/
def view (n : Nat) (ed : List Bool) : MatF := fun x y => mget ed (x * n + y)

/-- Two function matrices that agree on all in-range entries. -/
def Agree (n : Nat) (m1 m2 : MatF) : Prop :=
  ∀ x y, x < n → y < n → m1 x y = m2 x y

theorem agree_refl (n : Nat) (m : MatF) : Agree n m m := fun _ _ _ _ => rfl

/-- Flattened in-range indices stay below `n * n`. -/
theorem idx_lt {n i j : Nat} (hi : i < n) (hj : j < n) : i * n + j < n * n := by
  have h1 : i * n + j < i * n + n := Nat.add_lt_add_left hj _
  have h2 : i * n + n = (i + 1) * n := by ring
  have h3 : (i + 1) * n ≤ n * n := Nat.mul_le_mul_right n hi
  omega

/-- Flattening is injective on in-range column indices. -/
theorem idx_inj {n i j k l : Nat} (hj : j < n) (hl : l < n)
    (h : i * n + j = k * n + l) : i = k ∧ j = l := by
  have hik : i = k := by
    rcases Nat.lt_trichotomy i k with hlt | heq | hgt
    · exfalso
      have h1 : i * n + j < i * n + n := Nat.add_lt_add_left hj _
      have h2 : i * n + n = (i + 1) * n := by ring
      have h3 : (i + 1) * n ≤ k * n := Nat.mul_le_mul_right n hlt
      omega
    · exact heq
    · exfalso
      have h1 : k * n + l < k * n + n := Nat.add_lt_add_left hl _
      have h2 : k * n + n = (k + 1) * n := by ring
      have h3 : (k + 1) * n ≤ i * n := Nat.mul_le_mul_right n hgt
      omega
  subst hik
  exact ⟨rfl, by omega⟩

theorem mget_nil (q : Nat) : mget [] q = false := rfl

theorem mget_cons_zero (a : Bool) (l : List Bool) : mget (a :: l) 0 = a := rfl

theorem mget_cons_succ (a : Bool) (l : List Bool) (q : Nat) :
    mget (a :: l) (q + 1) = mget l q := rfl

/-- Reading after a positional write: the written value inside the vector,
the old value elsewhere (writes past the end are dropped, as for
`List.set`). -/
theorem mget_set : ∀ (ed : List Bool) (p q : Nat) (b : Bool),
    mget (ed.set p b) q = if p = q ∧ q < ed.length then b else mget ed q := by
  intro ed
  induction ed with
  | nil => intro p q b; simp [mget]
  | cons a t ih =>
    intro p q b
    cases p with
    | zero =>
      cases q with
      | zero => simp [List.set, mget_cons_zero]
      | succ q2 => simp [List.set, mget_cons_succ]
    | succ p2 =>
      cases q with
      | zero => simp [List.set, mget_cons_zero]
      | succ q2 =>
        rw [List.set_cons_succ, mget_cons_succ, mget_cons_succ, ih p2 q2 b]
        by_cases hc : p2 = q2 ∧ q2 < t.length
        · rw [if_pos hc, if_pos ⟨by omega, by simp [List.length_cons]; omega⟩]
        · rw [if_neg hc, if_neg ?_]
          intro hand
          rcases hand with ⟨h1, h2⟩
          simp [List.length_cons] at h2
          exact hc ⟨by omega, by omega⟩

/-- The fresh all-false matrix reads false everywhere. -/
theorem mget_replicate : ∀ (k p : Nat), mget (List.replicate k false) p = false := by
  intro k
  induction k with
  | zero => intro p; rfl
  | succ k2 ih =>
    intro p
    cases p with
    | zero => rfl
    | succ p2 => exact ih p2

/-- A positional write at an in-range flattened index is, seen through the
view, exactly the functional update. -/
theorem view_set {n : Nat} (ed : List Bool) (i j : Nat) (b : Bool)
    (hi : i < n) (hj : j < n) (hlen : ed.length = n * n)
    (x y : Nat) (hx : x < n) (hy : y < n) :
    view n (ed.set (i * n + j) b) x y = msetF (view n ed) i j b x y := by
  unfold view msetF
  rw [mget_set]
  by_cases hc : x = i ∧ y = j
  · rcases hc with ⟨hc1, hc2⟩
    subst hc1
    subst hc2
    rw [if_pos ⟨rfl, by rw [hlen]; exact idx_lt hx hy⟩, if_pos ⟨rfl, rfl⟩]
  · have hne : ¬(i * n + j = x * n + y ∧ x * n + y < ed.length) := by
      intro hand
      rcases idx_inj hj hy hand.1 with ⟨h1, h2⟩
      exact hc ⟨h1.symm, h2.symm⟩
    rw [if_neg hne, if_neg hc]

/-- Length-preserving steps make length-preserving folds. -/
theorem foldl_length {α : Type} (fL : List Bool → α → List Bool)
    (h : ∀ ed a, (fL ed a).length = ed.length) :
    ∀ (l : List α) (ed : List Bool), (l.foldl fL ed).length = ed.length := by
  intro l
  induction l with
  | nil => intro ed; rfl
  | cons a rest ih =>
    intro ed
    rw [List.foldl_cons, ih, h]

/-- A fold whose steps commute with the view, entrywise in range, commutes
with the view and preserves the `n * n` length. -/
theorem foldl_commutes {α : Type} (n : Nat) (fL : List Bool → α → List Bool)
    (fF : MatF → α → MatF) :
    ∀ (l : List α),
    (∀ ed m a, a ∈ l → ed.length = n * n → Agree n (view n ed) m →
      (fL ed a).length = n * n ∧ Agree n (view n (fL ed a)) (fF m a)) →
    ∀ ed m, ed.length = n * n → Agree n (view n ed) m →
      (l.foldl fL ed).length = n * n ∧
        Agree n (view n (l.foldl fL ed)) (l.foldl fF m) := by
  intro l
  induction l with
  | nil => intro _ ed m hlen hag; exact ⟨hlen, hag⟩
  | cons a rest ih =>
    intro hstep ed m hlen hag
    have h1 := hstep ed m a (List.mem_cons_self _ _) hlen hag
    rw [List.foldl_cons, List.foldl_cons]
    exact ih (fun ed m b hb => hstep ed m b (List.mem_cons_of_mem _ hb)) _ _ h1.1 h1.2

/-- Function-side edge application of one resource. -/
def addEdgesF (m : MatF) (es : List (Nat × Nat)) : MatF :=
  es.foldl (fun m e => msetF m e.1 e.2 true) m

/-- Function-side Stage A matrix. -/
def stageAF (deps : List (Nat × List (Nat × Bool))) : MatF :=
  deps.foldl (fun m d => addEdgesF m (synEdges d.2)) (fun _ _ => false)

/-- Function-side innermost closure loop. -/
def fwJF (n vk vi : Nat) (m : MatF) : MatF :=
  (List.range n).foldl (fun m vj => msetF m vi vj (m vi vj || (m vi vk && m vk vj))) m

/-- Function-side middle closure loop. -/
def fwIF (n vk : Nat) (m : MatF) : MatF :=
  (List.range n).foldl (fun m vi => fwJF n vk vi m) m

/-- Function-side transitive closure. -/
def closureF (n : Nat) (m : MatF) : MatF :=
  (List.range n).foldl (fun m vk => fwIF n vk m) m

/-- Function-side diagonal clearing. -/
def clearDiagF (n : Nat) (m : MatF) : MatF :=
  (List.range n).foldl (fun m v => msetF m v v false) m

/-- Function-side innermost reduction loop. -/
def redKF (n vi vj : Nat) (m : MatF) : MatF :=
  (List.range n).foldl (fun m vk => if m vj vk then msetF m vi vk false else m) m

/-- Function-side middle reduction loop. -/
def redIF (n vj : Nat) (m : MatF) : MatF :=
  (List.range n).foldl (fun m vi => if m vi vj then redKF n vi vj m else m) m

/-- Function-side transitive reduction. -/
def reduceF (n : Nat) (m : MatF) : MatF :=
  (List.range n).foldl (fun m vj => redIF n vj m) m

theorem length_applyEdges (n : Nat) (es : List (Nat × Nat)) (ed : List Bool) :
    (applyEdges n ed es).length = ed.length :=
  foldl_length _ (fun ed e => List.length_set ed _ _) es ed

theorem length_stageAEdges (n : Nat) (deps : List (Nat × List (Nat × Bool))) :
    (stageAEdges n deps).length = n * n := by
  unfold stageAEdges
  rw [foldl_length (fun ed d => applyEdges n ed (synEdges d.2))
    (fun ed d => length_applyEdges n _ ed) deps _]
  exact List.length_replicate _ _

theorem length_fwJ (n vk vi : Nat) (ed : List Bool) : (fwJ n vk vi ed).length = ed.length :=
  foldl_length _ (fun ed vj => List.length_set ed _ _) _ ed

theorem length_fwI (n vk : Nat) (ed : List Bool) : (fwI n vk ed).length = ed.length :=
  foldl_length _ (fun ed vi => length_fwJ n vk vi ed) _ ed

theorem length_closure (n : Nat) (ed : List Bool) : (closure n ed).length = ed.length :=
  foldl_length _ (fun ed vk => length_fwI n vk ed) _ ed

theorem length_clearDiag (n : Nat) (ed : List Bool) : (clearDiag n ed).length = ed.length :=
  foldl_length _ (fun ed v => List.length_set ed _ _) _ ed

theorem length_redK (n vi vj : Nat) (ed : List Bool) : (redK n vi vj ed).length = ed.length := by
  unfold redK
  apply foldl_length
  intro ed2 vk
  by_cases hg : mget ed2 (vj * n + vk) = true
  · rw [if_pos hg, List.length_set]
  · rw [if_neg hg]

theorem length_redI (n vj : Nat) (ed : List Bool) : (redI n vj ed).length = ed.length := by
  unfold redI
  apply foldl_length
  intro ed2 vi
  by_cases hg : mget ed2 (vi * n + vj) = true
  · rw [if_pos hg]; exact length_redK n vi vj ed2
  · rw [if_neg hg]

theorem length_reduce (n : Nat) (ed : List Bool) : (reduce n ed).length = ed.length :=
  foldl_length _ (fun ed vj => length_redI n vj ed) _ ed

theorem fwJ_commutes (n vk vi : Nat) (hvk : vk < n) (hvi : vi < n)
    (ed : List Bool) (m : MatF) (hlen : ed.length = n * n)
    (hag : Agree n (view n ed) m) :
    (fwJ n vk vi ed).length = n * n ∧
      Agree n (view n (fwJ n vk vi ed)) (fwJF n vk vi m) := by
  unfold fwJ fwJF
  refine foldl_commutes n _ _ (List.range n) ?_ ed m hlen hag
  intro ed m vj hvjmem hlen hag
  have hvj : vj < n := List.mem_range.mp hvjmem
  constructor
  · rw [List.length_set, hlen]
  · intro x y hx hy
    rw [view_set ed vi vj _ hvi hvj hlen x y hx hy]
    unfold msetF
    by_cases hc : x = vi ∧ y = vj
    · rw [if_pos hc, if_pos hc]
      have e1 : mget ed (vi * n + vj) = m vi vj := hag vi vj hvi hvj
      have e2 : mget ed (vi * n + vk) = m vi vk := hag vi vk hvi hvk
      have e3 : mget ed (vk * n + vj) = m vk vj := hag vk vj hvk hvj
      rw [e1, e2, e3]
    · rw [if_neg hc, if_neg hc]
      exact hag x y hx hy

theorem fwI_commutes (n vk : Nat) (hvk : vk < n)
    (ed : List Bool) (m : MatF) (hlen : ed.length = n * n)
    (hag : Agree n (view n ed) m) :
    (fwI n vk ed).length = n * n ∧ Agree n (view n (fwI n vk ed)) (fwIF n vk m) := by
  unfold fwI fwIF
  refine foldl_commutes n _ _ (List.range n) ?_ ed m hlen hag
  intro ed m vi hvimem hlen hag
  exact fwJ_commutes n vk vi hvk (List.mem_range.mp hvimem) ed m hlen hag

theorem closure_commutes (n : Nat)
    (ed : List Bool) (m : MatF) (hlen : ed.length = n * n)
    (hag : Agree n (view n ed) m) :
    (closure n ed).length = n * n ∧ Agree n (view n (closure n ed)) (closureF n m) := by
  unfold closure closureF
  refine foldl_commutes n _ _ (List.range n) ?_ ed m hlen hag
  intro ed m vk hvkmem hlen hag
  exact fwI_commutes n vk (List.mem_range.mp hvkmem) ed m hlen hag

theorem clearDiag_commutes (n : Nat)
    (ed : List Bool) (m : MatF) (hlen : ed.length = n * n)
    (hag : Agree n (view n ed) m) :
    (clearDiag n ed).length = n * n ∧
      Agree n (view n (clearDiag n ed)) (clearDiagF n m) := by
  unfold clearDiag clearDiagF
  refine foldl_commutes n _ _ (List.range n) ?_ ed m hlen hag
  intro ed m v hvmem hlen hag
  have hv : v < n := List.mem_range.mp hvmem
  constructor
  · rw [List.length_set, hlen]
  · intro x y hx hy
    rw [view_set ed v v _ hv hv hlen x y hx hy]
    unfold msetF
    by_cases hc : x = v ∧ y = v
    · rw [if_pos hc, if_pos hc]
    · rw [if_neg hc, if_neg hc]
      exact hag x y hx hy

theorem redK_commutes (n vi vj : Nat) (hvi : vi < n) (hvj : vj < n)
    (ed : List Bool) (m : MatF) (hlen : ed.length = n * n)
    (hag : Agree n (view n ed) m) :
    (redK n vi vj ed).length = n * n ∧
      Agree n (view n (redK n vi vj ed)) (redKF n vi vj m) := by
  unfold redK redKF
  refine foldl_commutes n _ _ (List.range n) ?_ ed m hlen hag
  intro ed m vk hvkmem hlen hag
  have hvk : vk < n := List.mem_range.mp hvkmem
  have hg : mget ed (vj * n + vk) = m vj vk := hag vj vk hvj hvk
  by_cases hgt : m vj vk = true
  · rw [hg, if_pos hgt, if_pos hgt]
    constructor
    · rw [List.length_set, hlen]
    · intro x y hx hy
      rw [view_set ed vi vk _ hvi hvk hlen x y hx hy]
      unfold msetF
      by_cases hc : x = vi ∧ y = vk
      · rw [if_pos hc, if_pos hc]
      · rw [if_neg hc, if_neg hc]
        exact hag x y hx hy
  · rw [hg, if_neg hgt, if_neg hgt]
    exact ⟨hlen, hag⟩

theorem redI_commutes (n vj : Nat) (hvj : vj < n)
    (ed : List Bool) (m : MatF) (hlen : ed.length = n * n)
    (hag : Agree n (view n ed) m) :
    (redI n vj ed).length = n * n ∧
      Agree n (view n (redI n vj ed)) (redIF n vj m) := by
  unfold redI redIF
  refine foldl_commutes n _ _ (List.range n) ?_ ed m hlen hag
  intro ed m vi hvimem hlen hag
  have hvi : vi < n := List.mem_range.mp hvimem
  have hg : mget ed (vi * n + vj) = m vi vj := hag vi vj hvi hvj
  by_cases hgt : m vi vj = true
  · rw [hg, if_pos hgt, if_pos hgt]
    exact redK_commutes n vi vj hvi hvj ed m hlen hag
  · rw [hg, if_neg hgt, if_neg hgt]
    exact ⟨hlen, hag⟩

theorem reduce_commutes (n : Nat)
    (ed : List Bool) (m : MatF) (hlen : ed.length = n * n)
    (hag : Agree n (view n ed) m) :
    (reduce n ed).length = n * n ∧ Agree n (view n (reduce n ed)) (reduceF n m) := by
  unfold reduce reduceF
  refine foldl_commutes n _ _ (List.range n) ?_ ed m hlen hag
  intro ed m vj hvjmem hlen hag
  exact redI_commutes n vj (List.mem_range.mp hvjmem) ed m hlen hag

/-- The innermost reduction loop only clears entries. -/
theorem redKL_le (vi vj : Nat) :
    ∀ (ks : List Nat) (m : MatF) (x y : Nat),
      (ks.foldl (fun m vk => if m vj vk then msetF m vi vk false else m) m) x y = true →
      m x y = true := by
  intro ks
  induction ks with
  | nil => intro m x y h; exact h
  | cons k0 rest ih =>
    intro m x y h
    simp only [List.foldl_cons] at h
    have h2 := ih _ x y h
    by_cases hg : m vj k0 = true
    · rw [if_pos hg] at h2
      unfold msetF at h2
      by_cases hp : x = vi ∧ y = k0
      · rw [if_pos hp] at h2
        exact Bool.noConfusion h2
      · rw [if_neg hp] at h2
        exact h2
    · rw [if_neg hg] at h2
      exact h2

theorem redKF_le (n vi vj : Nat) (m : MatF) (x y : Nat)
    (h : redKF n vi vj m x y = true) : m x y = true :=
  redKL_le vi vj (List.range n) m x y h

/-- The middle reduction loop only clears entries. -/
theorem redIL_le (n vj : Nat) :
    ∀ (is : List Nat) (m : MatF) (x y : Nat),
      (is.foldl (fun m vi => if m vi vj then redKF n vi vj m else m) m) x y = true →
      m x y = true := by
  intro is
  induction is with
  | nil => intro m x y h; exact h
  | cons i0 rest ih =>
    intro m x y h
    simp only [List.foldl_cons] at h
    have h2 := ih _ x y h
    by_cases hg : m i0 vj = true
    · rw [if_pos hg] at h2
      exact redKF_le n i0 vj m x y h2
    · rw [if_neg hg] at h2
      exact h2

theorem redIF_le (n vj : Nat) (m : MatF) (x y : Nat)
    (h : redIF n vj m x y = true) : m x y = true :=
  redIL_le n vj (List.range n) m x y h

/-- The whole reduction only clears entries. -/
theorem reduceL_le (n : Nat) :
    ∀ (js : List Nat) (m : MatF) (x y : Nat),
      (js.foldl (fun m vj => redIF n vj m) m) x y = true → m x y = true := by
  intro js
  induction js with
  | nil => intro m x y h; exact h
  | cons j0 rest ih =>
    intro m x y h
    simp only [List.foldl_cons] at h
    exact redIF_le n j0 m x y (ih _ x y h)

theorem reduceF_le (n : Nat) (m : MatF) (x y : Nat)
    (h : reduceF n m x y = true) : m x y = true :=
  reduceL_le n (List.range n) m x y h

/-- If after the innermost loop the entry `vj → k` still holds for a
processed `k`, the entry `vi → k` was cleared and stays cleared. -/
theorem redKL_clears (vi vj : Nat) :
    ∀ (ks : List Nat) (m : MatF) (k : Nat), k ∈ ks →
      (ks.foldl (fun m vk => if m vj vk then msetF m vi vk false else m) m) vj k = true →
      (ks.foldl (fun m vk => if m vj vk then msetF m vi vk false else m) m) vi k = false := by
  intro ks
  induction ks with
  | nil => intro m k hk; cases hk
  | cons k0 rest ih =>
    intro m k hk hjk
    simp only [List.foldl_cons] at hjk ⊢
    rcases List.mem_cons.mp hk with hk0 | hkrest
    · subst hk0
      by_cases hg : m vj k = true
      · rw [if_pos hg] at hjk ⊢
        cases hval : (rest.foldl (fun m vk => if m vj vk then msetF m vi vk false else m)
            (msetF m vi k false)) vi k
        · rfl
        · exfalso
          have hle := redKL_le vi vj rest (msetF m vi k false) vi k hval
          unfold msetF at hle
          rw [if_pos ⟨rfl, rfl⟩] at hle
          exact Bool.noConfusion hle
      · rw [if_neg hg] at hjk
        exact absurd (redKL_le vi vj rest m vj k hjk) hg
    · exact ih _ k hkrest hjk

/-- If after the middle loop the entries `i → vj` and `vj → k` both still
hold, with `i` processed and `k` in range, the entry `i → k` is cleared. -/
theorem redIL_clears (n vj : Nat) :
    ∀ (is : List Nat) (m : MatF) (i k : Nat), i ∈ is → k < n →
      (is.foldl (fun m vi => if m vi vj then redKF n vi vj m else m) m) i vj = true →
      (is.foldl (fun m vi => if m vi vj then redKF n vi vj m else m) m) vj k = true →
      (is.foldl (fun m vi => if m vi vj then redKF n vi vj m else m) m) i k = false := by
  intro is
  induction is with
  | nil => intro m i k hi; cases hi
  | cons i0 rest ih =>
    intro m i k hi hk hivj hvjk
    simp only [List.foldl_cons] at hivj hvjk ⊢
    rcases List.mem_cons.mp hi with hi0 | hirest
    · subst hi0
      by_cases hg : m i vj = true
      · rw [if_pos hg] at hivj hvjk ⊢
        have hm1vjk : redKF n i vj m vj k = true := redIL_le n vj rest _ vj k hvjk
        have hm1ik : redKF n i vj m i k = false :=
          redKL_clears i vj (List.range n) m k (List.mem_range.mpr hk) hm1vjk
        cases hval : (rest.foldl (fun m vi => if m vi vj then redKF n vi vj m else m)
            (redKF n i vj m)) i k
        · rfl
        · exfalso
          have hle := redIL_le n vj rest (redKF n i vj m) i k hval
          rw [hm1ik] at hle
          exact Bool.noConfusion hle
      · rw [if_neg hg] at hivj
        exact absurd (redIL_le n vj rest m i vj hivj) hg
    · exact ih _ i k hirest hk hivj hvjk

/-- If after the outer reduction loop the entries `i → j` and `j → k` both
still hold, with `j` processed and `i`, `k` in range, the entry `i → k` is
cleared: edges are only ever cleared, so entries true at the end were true
when iteration `vj = j` visited `vi = i`, `vk = k`, and that visit wiped
`i → k` for good. -/
theorem redJL_clears (n : Nat) :
    ∀ (js : List Nat) (m : MatF) (i j k : Nat), j ∈ js → i < n → k < n →
      (js.foldl (fun m vj => redIF n vj m) m) i j = true →
      (js.foldl (fun m vj => redIF n vj m) m) j k = true →
      (js.foldl (fun m vj => redIF n vj m) m) i k = false := by
  intro js
  induction js with
  | nil => intro m i j k hj; cases hj
  | cons j0 rest ih =>
    intro m i j k hj hi hk hij hjk
    simp only [List.foldl_cons] at hij hjk ⊢
    rcases List.mem_cons.mp hj with hj0 | hjrest
    · subst hj0
      have hm1ij : redIF n j m i j = true := reduceL_le n rest _ i j hij
      have hm1jk : redIF n j m j k = true := reduceL_le n rest _ j k hjk
      have hm1ik : redIF n j m i k = false :=
        redIL_clears n j (List.range n) m i k (List.mem_range.mpr hi) hk hm1ij hm1jk
      cases hval : (rest.foldl (fun m vj => redIF n vj m) (redIF n j m)) i k
      · rfl
      · exfalso
        have hle := reduceL_le n rest (redIF n j m) i k hval
        rw [hm1ik] at hle
        exact Bool.noConfusion hle
    · exact ih _ i j k hjrest hi hk hij hjk

/-- Function-side minimality of the reduced matrix, for any input. -/
theorem reduceF_minimal (n : Nat) (m : MatF) (i j k : Nat)
    (hi : i < n) (hj : j < n) (hk : k < n)
    (hij : reduceF n m i j = true) (hjk : reduceF n m j k = true) :
    reduceF n m i k = false :=
  redJL_clears n (List.range n) m i j k (List.mem_range.mpr hj) hi hk hij hjk

/-- Value of the diagonal-clearing fold. -/
theorem clearDiagL_spec :
    ∀ (vs : List Nat) (m : MatF) (x y : Nat),
      (vs.foldl (fun m v => msetF m v v false) m) x y =
        if x = y ∧ x ∈ vs then false else m x y := by
  intro vs
  induction vs with
  | nil => intro m x y; simp
  | cons v rest ih =>
    intro m x y
    simp only [List.foldl_cons]
    rw [ih]
    by_cases h1 : x = y ∧ x ∈ rest
    · rw [if_pos h1, if_pos ⟨h1.1, List.mem_cons_of_mem _ h1.2⟩]
    · rw [if_neg h1]
      unfold msetF
      by_cases h2 : x = v ∧ y = v
      · rw [if_pos h2, if_pos ⟨by rw [h2.1, h2.2], by rw [h2.1]; exact List.mem_cons_self _ _⟩]
      · rw [if_neg h2, if_neg ?_]
        intro hand
        rcases hand with ⟨hxy, hmem⟩
        rcases List.mem_cons.mp hmem with hxv | hxrest
        · refine h2 ⟨hxv, ?_⟩
          rw [← hxy]
          exact hxv
        · exact h1 ⟨hxy, hxrest⟩

/-- Value of the function-side diagonal clearing. -/
theorem clearDiagF_spec (n : Nat) (m : MatF) (x y : Nat) :
    clearDiagF n m x y = if x = y ∧ x < n then false else m x y := by
  unfold clearDiagF
  rw [clearDiagL_spec]
  by_cases h : x = y ∧ x < n
  · rw [if_pos ⟨h.1, List.mem_range.mpr h.2⟩, if_pos h]
  · rw [if_neg ?_, if_neg h]
    intro hand
    exact h ⟨hand.1, List.mem_range.mp hand.2⟩

/-- Reduction after diagonal clearing leaves every in-range diagonal entry
false. -/
theorem reduceF_diag_false (n : Nat) (m : MatF) (i : Nat) (hi : i < n) :
    reduceF n (clearDiagF n m) i i = false := by
  cases hval : reduceF n (clearDiagF n m) i i
  · rfl
  · exfalso
    have hle := reduceF_le n (clearDiagF n m) i i hval
    rw [clearDiagF_spec, if_pos ⟨rfl, hi⟩] at hle
    exact Bool.noConfusion hle

/-- C3: minimality of the compiled graph of every recorder state.  If the
final matrix holds direct edges i→j and j→k on task indices, it does not
hold the direct edge i→k: the reduction loops only ever clear entries, so
edges surviving to the end were present when iteration `vj = j` examined
the pair, and that iteration cleared i→k. -/
theorem flow_minimality : ∀ (s : FlowState) (i j k : Nat),
    i < s.task.length → j < s.task.length → k < s.task.length →
    edgeAt s i j = true → edgeAt s j k = true → edgeAt s i k = false := by
  intro s i j k hi hj hk hij hjk
  set n := s.task.length with hn
  set edD := clearDiag n (closure n (stageAEdges n s.deps)) with hedD
  have hlenD : edD.length = n * n := by
    rw [hedD, length_clearDiag, length_closure, length_stageAEdges]
  have hR := reduce_commutes n edD (view n edD) hlenD (agree_refl n (view n edD))
  have hij2 : reduceF n (view n edD) i j = true := by
    rw [← hR.2 i j hi hj]
    exact hij
  have hjk2 : reduceF n (view n edD) j k = true := by
    rw [← hR.2 j k hj hk]
    exact hjk
  have hik2 := reduceF_minimal n (view n edD) i j k hi hj hk hij2 hjk2
  have hview : edgeAt s i k = view n (reduce n edD) i k := rfl
  rw [hview, hR.2 i k hi hk]
  exact hik2

/-- Witness for C3 at the diamond state: edges 0→1 and 1→3 are present, so
0→3 is absent from the minimal graph. -/
theorem flow_minimality_witness : edgeAt diamondState 0 3 = false :=
  flow_minimality diamondState 0 1 3 (by decide) (by decide) (by decide)
    (by decide) (by decide)

/-- C4: the compiled graph of every recorder state has no self-loop on any
task index: diagonal clearing wipes the diagonal and the reduction loops
never set an entry. -/
theorem flow_no_self_loops : ∀ (s : FlowState) (i : Nat), i < s.task.length →
    edgeAt s i i = false := by
  intro s i hi
  set n := s.task.length with hn
  set edC := closure n (stageAEdges n s.deps) with hedC
  have hlenC : edC.length = n * n := by
    rw [hedC, length_closure, length_stageAEdges]
  have hD := clearDiag_commutes n edC (view n edC) hlenC (agree_refl n (view n edC))
  have hR := reduce_commutes n (clearDiag n edC) (clearDiagF n (view n edC)) hD.1 hD.2
  have hview : edgeAt s i i = view n (reduce n (clearDiag n edC)) i i := rfl
  rw [hview, hR.2 i i hi hi]
  exact reduceF_diag_false n (view n edC) i hi

/-- Witness for C4 at the diamond state. -/
theorem flow_no_self_loops_witness : edgeAt diamondState 2 2 = false :=
  flow_no_self_loops diamondState 2 (by decide)

theorem bool_or_and_self (a b : Bool) : (a || (a && b)) = a := by
  cases a <;> cases b <;> rfl

theorem bool_or_and_self_left (a b : Bool) : (a || (b && a)) = a := by
  cases a <;> cases b <;> rfl

/-- Value of the innermost Floyd-Warshall loop over a duplicate-free column
list: the in-place update is harmless because entries in row and column
`vk` are fixed points of the update formula. -/
theorem fwJL_spec (vk vi : Nat) :
    ∀ (js : List Nat), js.Nodup →
      ∀ (m : MatF) (x y : Nat),
        (js.foldl (fun m vj => msetF m vi vj (m vi vj || (m vi vk && m vk vj))) m) x y =
          if x = vi ∧ y ∈ js then m x y || (m x vk && m vk y) else m x y := by
  intro js
  induction js with
  | nil => intro _ m x y; simp
  | cons vj rest ih =>
    intro hnd m x y
    have hndr : rest.Nodup := (List.nodup_cons.mp hnd).2
    have hvjnr : vj ∉ rest := (List.nodup_cons.mp hnd).1
    simp only [List.foldl_cons]
    rw [ih hndr]
    set m1 := msetF m vi vj (m vi vj || (m vi vk && m vk vj)) with hm1def
    have hA : ∀ x2, m1 x2 vk = m x2 vk := by
      intro x2
      rw [hm1def]
      unfold msetF
      by_cases hc : x2 = vi ∧ vk = vj
      · rw [if_pos hc]
        rcases hc with ⟨h1, h2⟩
        rw [h1, ← h2]
        exact bool_or_and_self _ _
      · rw [if_neg hc]
    have hB : ∀ y2, m1 vk y2 = m vk y2 := by
      intro y2
      rw [hm1def]
      unfold msetF
      by_cases hc : vk = vi ∧ y2 = vj
      · rw [if_pos hc]
        rcases hc with ⟨h1, h2⟩
        rw [h2, h1]
        exact bool_or_and_self_left _ _
      · rw [if_neg hc]
    by_cases hx : x = vi
    · by_cases hyr : y ∈ rest
      · rw [if_pos ⟨hx, hyr⟩, if_pos ⟨hx, List.mem_cons_of_mem _ hyr⟩]
        have hyvj : y ≠ vj := fun he => hvjnr (he ▸ hyr)
        have hC : m1 x y = m x y := by
          rw [hm1def]
          unfold msetF
          rw [if_neg (fun hand => hyvj hand.2)]
        rw [hA x, hB y, hC]
      · by_cases hyv : y = vj
        · rw [if_neg (fun hand => hyr hand.2),
              if_pos ⟨hx, by rw [hyv]; exact List.mem_cons_self _ _⟩]
          rw [hm1def]
          unfold msetF
          rw [if_pos ⟨hx, hyv⟩, hx, hyv]
        · rw [if_neg (fun hand => hyr hand.2),
              if_neg (fun hand => (List.mem_cons.mp hand.2).elim hyv hyr)]
          rw [hm1def]
          unfold msetF
          rw [if_neg (fun hand => hyv hand.2)]
    · rw [if_neg (fun hand => hx hand.1), if_neg (fun hand => hx hand.1)]
      rw [hm1def]
      unfold msetF
      rw [if_neg (fun hand => hx hand.1)]

/-- Value of the function-side innermost closure loop. -/
theorem fwJF_spec (n vk vi : Nat) (m : MatF) (x y : Nat) :
    fwJF n vk vi m x y =
      if x = vi ∧ y < n then m x y || (m x vk && m vk y) else m x y := by
  unfold fwJF
  rw [fwJL_spec vk vi (List.range n) (List.nodup_range n)]
  by_cases hc : x = vi ∧ y < n
  · rw [if_pos ⟨hc.1, List.mem_range.mpr hc.2⟩, if_pos hc]
  · rw [if_neg ?_, if_neg hc]
    intro hand
    exact hc ⟨hand.1, List.mem_range.mp hand.2⟩

/-- Value of the middle Floyd-Warshall loop over a duplicate-free row
list. -/
theorem fwIL_spec (n vk : Nat) :
    ∀ (is : List Nat), is.Nodup →
      ∀ (m : MatF) (x y : Nat),
        (is.foldl (fun m vi => fwJF n vk vi m) m) x y =
          if x ∈ is ∧ y < n then m x y || (m x vk && m vk y) else m x y := by
  intro is
  induction is with
  | nil => intro _ m x y; simp
  | cons vi rest ih =>
    intro hnd m x y
    have hndr : rest.Nodup := (List.nodup_cons.mp hnd).2
    have hvinr : vi ∉ rest := (List.nodup_cons.mp hnd).1
    simp only [List.foldl_cons]
    rw [ih hndr]
    have hA : ∀ x2, fwJF n vk vi m x2 vk = m x2 vk := by
      intro x2
      rw [fwJF_spec]
      by_cases hc : x2 = vi ∧ vk < n
      · rw [if_pos hc]
        exact bool_or_and_self _ _
      · rw [if_neg hc]
    have hB : ∀ y2, fwJF n vk vi m vk y2 = m vk y2 := by
      intro y2
      rw [fwJF_spec]
      by_cases hc : vk = vi ∧ y2 < n
      · rw [if_pos hc]
        exact bool_or_and_self_left _ _
      · rw [if_neg hc]
    by_cases hx : x ∈ rest
    · have hxvi : x ≠ vi := fun he => hvinr (he ▸ hx)
      by_cases hy : y < n
      · rw [if_pos ⟨hx, hy⟩, if_pos ⟨List.mem_cons_of_mem _ hx, hy⟩]
        have hC : fwJF n vk vi m x y = m x y := by
          rw [fwJF_spec, if_neg (fun hand => hxvi hand.1)]
        rw [hA x, hB y, hC]
      · rw [if_neg (fun hand => hy hand.2), if_neg (fun hand => hy hand.2)]
        rw [fwJF_spec, if_neg (fun hand => hxvi hand.1)]
    · by_cases hxv : x = vi
      · subst hxv
        rw [if_neg (fun hand => hx hand.1)]
        rw [fwJF_spec]
        by_cases hy : y < n
        · rw [if_pos ⟨rfl, hy⟩, if_pos ⟨List.mem_cons_self _ _, hy⟩]
        · rw [if_neg (fun hand => hy hand.2), if_neg (fun hand => hy hand.2)]
      · rw [if_neg (fun hand => hx hand.1),
            if_neg (fun hand => (List.mem_cons.mp hand.1).elim hxv hx)]
        rw [fwJF_spec, if_neg (fun hand => hxv hand.1)]

/-- Value of one whole Floyd-Warshall round for intermediate `vk`. -/
theorem fwIF_spec (n vk : Nat) (m : MatF) (x y : Nat) :
    fwIF n vk m x y = if x < n ∧ y < n then m x y || (m x vk && m vk y) else m x y := by
  unfold fwIF
  rw [fwIL_spec n vk (List.range n) (List.nodup_range n)]
  by_cases hc : x < n ∧ y < n
  · rw [if_pos ⟨List.mem_range.mpr hc.1, hc.2⟩, if_pos hc]
  · rw [if_neg ?_, if_neg hc]
    intro hand
    exact hc ⟨List.mem_range.mp hand.1, hand.2⟩

/-- Paths of a boolean relation whose intermediate vertices all come from
the list `S`: the classic Floyd-Warshall invariant. -/
inductive PathIn (A : MatF) (S : List Nat) : Nat → Nat → Prop
  | edge {i j : Nat} : A i j = true → PathIn A S i j
  | comp {i j : Nat} (k : Nat) : k ∈ S → PathIn A S i k → PathIn A S k j → PathIn A S i j

theorem pathIn_mono {A : MatF} {S T : List Nat} (hST : ∀ a ∈ S, a ∈ T) :
    ∀ {i j : Nat}, PathIn A S i j → PathIn A T i j := by
  intro i j h
  induction h with
  | edge he => exact PathIn.edge he
  | comp k hk _ _ ihp ihq => exact PathIn.comp k (hST k hk) ihp ihq

/-- Adding one admissible intermediate: a path through `S ++ [k0]` either
avoids `k0` or decomposes at `k0`. -/
theorem pathIn_append (A : MatF) (S : List Nat) (k0 : Nat) :
    ∀ i j : Nat, PathIn A (S ++ [k0]) i j ↔
      (PathIn A S i j ∨ (PathIn A S i k0 ∧ PathIn A S k0 j)) := by
  intro i j
  constructor
  · intro h
    induction h with
    | edge he => exact Or.inl (PathIn.edge he)
    | comp k hk _ _ ihp ihq =>
      rcases List.mem_append.mp hk with hkS | hkk0
      · rcases ihp with hp | ⟨hp1, hp2⟩
        · rcases ihq with hq | ⟨hq1, hq2⟩
          · exact Or.inl (PathIn.comp k hkS hp hq)
          · exact Or.inr ⟨PathIn.comp k hkS hp hq1, hq2⟩
        · rcases ihq with hq | ⟨hq1, hq2⟩
          · exact Or.inr ⟨hp1, PathIn.comp k hkS hp2 hq⟩
          · exact Or.inr ⟨hp1, hq2⟩
      · have hk0 : k = k0 := by simpa using hkk0
        subst hk0
        rcases ihp with hp | ⟨hp1, hp2⟩
        · rcases ihq with hq | ⟨hq1, hq2⟩
          · exact Or.inr ⟨hp, hq⟩
          · exact Or.inr ⟨hp, hq2⟩
        · rcases ihq with hq | ⟨hq1, hq2⟩
          · exact Or.inr ⟨hp1, hq⟩
          · exact Or.inr ⟨hp1, hq2⟩
  · intro h
    rcases h with h | ⟨h1, h2⟩
    · exact pathIn_mono (fun a ha => List.mem_append.mpr (Or.inl ha)) h
    · exact PathIn.comp k0 (List.mem_append.mpr (Or.inr (List.mem_cons_self _ _)))
        (pathIn_mono (fun a ha => List.mem_append.mpr (Or.inl ha)) h1)
        (pathIn_mono (fun a ha => List.mem_append.mpr (Or.inl ha)) h2)

/-- With all edges in range, path endpoints are in range. -/
theorem pathIn_lt {n : Nat} {A : MatF} (hwf : ∀ x y, A x y = true → x < n ∧ y < n)
    {S : List Nat} : ∀ {i j : Nat}, PathIn A S i j → i < n ∧ j < n := by
  intro i j h
  induction h with
  | edge he => exact hwf _ _ he
  | comp k _ _ _ ihp ihq => exact ⟨ihp.1, ihq.2⟩

/-- The Floyd-Warshall fold invariant: after processing the intermediates
`ks`, an entry holds exactly when a path through `S ++ ks` exists. -/
theorem closureL_pathIn {n : Nat} {A : MatF}
    (hwf : ∀ x y, A x y = true → x < n ∧ y < n) :
    ∀ (ks : List Nat) (S : List Nat) (m : MatF),
      (∀ x y, m x y = true ↔ PathIn A S x y) →
      ∀ x y, (ks.foldl (fun m vk => fwIF n vk m) m) x y = true ↔
        PathIn A (S ++ ks) x y := by
  intro ks
  induction ks with
  | nil =>
    intro S m hm x y
    rw [List.append_nil]
    exact hm x y
  | cons k rest ih =>
    intro S m hm x y
    simp only [List.foldl_cons]
    have hstep : ∀ x y, fwIF n k m x y = true ↔ PathIn A (S ++ [k]) x y := by
      intro x y
      rw [fwIF_spec, pathIn_append]
      by_cases hc : x < n ∧ y < n
      · rw [if_pos hc, Bool.or_eq_true, Bool.and_eq_true, hm x y, hm x k, hm k y]
      · rw [if_neg hc, hm x y]
        constructor
        · intro h
          exact Or.inl h
        · intro h
          rcases h with h | ⟨h1, h2⟩
          · exact h
          · exact absurd ⟨(pathIn_lt hwf h1).1, (pathIn_lt hwf h2).2⟩ hc
    have hrec := ih (S ++ [k]) (fwIF n k m) hstep x y
    rw [hrec, List.append_assoc]
    exact Iff.rfl

/-- Correctness of the embedded Floyd-Warshall closure: an entry of the
closed matrix holds exactly when a nonempty chain of direct edges connects
the two indices. -/
theorem closureF_correct {n : Nat} {A : MatF}
    (hwf : ∀ x y, A x y = true → x < n ∧ y < n) :
    ∀ x y, closureF n A x y = true ↔
      Relation.TransGen (fun a b => A a b = true) x y := by
  have hbase : ∀ x y, A x y = true ↔ PathIn A [] x y := by
    intro x y
    constructor
    · exact PathIn.edge
    · intro h
      cases h with
      | edge he => exact he
      | comp k hk _ _ => cases hk
  intro x y
  have h1 := closureL_pathIn hwf (List.range n) [] A hbase x y
  rw [List.nil_append] at h1
  unfold closureF
  rw [h1]
  clear h1
  constructor
  · intro h
    induction h with
    | edge he => exact Relation.TransGen.single he
    | comp k _ _ _ ihp ihq => exact Relation.TransGen.trans ihp ihq
  · intro h
    induction h with
    | single he => exact PathIn.edge he
    | tail hp he ih =>
      have hb := (hwf _ _ he).1
      exact PathIn.comp _ (List.mem_range.mpr hb) ih (PathIn.edge he)

/-- With all edges in range, reachable pairs are in range. -/
theorem transGen_lt {n : Nat} {A : MatF}
    (hwf : ∀ x y, A x y = true → x < n ∧ y < n) :
    ∀ {x y : Nat}, Relation.TransGen (fun a b => A a b = true) x y →
      x < n ∧ y < n := by
  intro x y h
  induction h with
  | single he => exact hwf _ _ he
  | tail hp he ih => exact ⟨ih.1, (hwf _ _ he).2⟩

/-- The matrix `m` never holds an entry the reference matrix `m0` lacks. -/
def Below (m0 m : MatF) : Prop := ∀ x y, m x y = true → m0 x y = true

/-- Every entry `m` lacks is either absent from `m0` too, or was cleared
with an in-range intermediate witnessed in `m0`. -/
def Justified (n : Nat) (m0 m : MatF) : Prop :=
  ∀ x y, m x y = false →
    m0 x y = false ∨ ∃ j, j < n ∧ m0 x j = true ∧ m0 j y = true

/-- The innermost reduction loop preserves `Below` and `Justified`: every
clear it performs is guarded by current entries, which `Below` traces back
to `m0`. -/
theorem redKL_pres (n vi vj : Nat) (m0 : MatF) (hj0 : m0 vi vj = true) (hvj : vj < n) :
    ∀ (ks : List Nat) (m : MatF), Below m0 m → Justified n m0 m →
      Below m0 (ks.foldl (fun m vk => if m vj vk then msetF m vi vk false else m) m) ∧
      Justified n m0 (ks.foldl (fun m vk => if m vj vk then msetF m vi vk false else m) m) := by
  intro ks
  induction ks with
  | nil => intro m hb hjt; exact ⟨hb, hjt⟩
  | cons k0 rest ih =>
    intro m hb hjt
    simp only [List.foldl_cons]
    by_cases hg : m vj k0 = true
    · rw [if_pos hg]
      refine ih _ ?_ ?_
      · intro x y hxy
        unfold msetF at hxy
        by_cases hp : x = vi ∧ y = k0
        · rw [if_pos hp] at hxy
          exact Bool.noConfusion hxy
        · rw [if_neg hp] at hxy
          exact hb x y hxy
      · intro x y hxy
        by_cases hp : x = vi ∧ y = k0
        · rcases hp with ⟨h1, h2⟩
          subst h1
          subst h2
          exact Or.inr ⟨vj, hvj, hj0, hb vj y hg⟩
        · unfold msetF at hxy
          rw [if_neg hp] at hxy
          exact hjt x y hxy
    · rw [if_neg hg]
      exact ih _ hb hjt

/-- The middle reduction loop preserves `Below` and `Justified`. -/
theorem redIL_pres (n vj : Nat) (m0 : MatF) (hvj : vj < n) :
    ∀ (is : List Nat) (m : MatF), Below m0 m → Justified n m0 m →
      Below m0 (is.foldl (fun m vi => if m vi vj then redKF n vi vj m else m) m) ∧
      Justified n m0 (is.foldl (fun m vi => if m vi vj then redKF n vi vj m else m) m) := by
  intro is
  induction is with
  | nil => intro m hb hjt; exact ⟨hb, hjt⟩
  | cons i0 rest ih =>
    intro m hb hjt
    simp only [List.foldl_cons]
    by_cases hg : m i0 vj = true
    · rw [if_pos hg]
      have hpres := redKL_pres n i0 vj m0 (hb i0 vj hg) hvj (List.range n) m hb hjt
      exact ih _ hpres.1 hpres.2
    · rw [if_neg hg]
      exact ih _ hb hjt

/-- The whole reduction preserves `Below` and `Justified` over its starting
matrix. -/
theorem reduceF_pres (n : Nat) (m0 : MatF) :
    ∀ (js : List Nat), (∀ j ∈ js, j < n) →
      ∀ (m : MatF), Below m0 m → Justified n m0 m →
        Below m0 (js.foldl (fun m vj => redIF n vj m) m) ∧
        Justified n m0 (js.foldl (fun m vj => redIF n vj m) m) := by
  intro js
  induction js with
  | nil => intro _ m hb hjt; exact ⟨hb, hjt⟩
  | cons j0 rest ih =>
    intro hjs m hb hjt
    simp only [List.foldl_cons]
    have h1 := redIL_pres n j0 m0 (hjs j0 (List.mem_cons_self _ _)) (List.range n) m hb hjt
    exact ih (fun j hj => hjs j (List.mem_cons_of_mem _ hj)) _ h1.1 h1.2

/-- Reachability survives the reduction: whatever the closed matrix `C`
connects, the reduced matrix `F` still connects through a chain of
surviving direct edges.  The proof descends on the number of `C`-interval
points between the two ends. -/
theorem reduce_keeps_reach {n : Nat} {C F : MatF}
    (htrans : ∀ a b c, C a b = true → C b c = true → C a c = true)
    (hirr : ∀ a, C a a = false)
    (hb : Below C F) (hjt : Justified n C F) :
    ∀ x y, C x y = true → Relation.TransGen (fun a b => F a b = true) x y := by
  have main : ∀ (N : Nat) (x y : Nat),
      ((Finset.range n).filter (fun z => C x z = true ∧ C z y = true)).card ≤ N →
      C x y = true → Relation.TransGen (fun a b => F a b = true) x y := by
    intro N
    induction N with
    | zero =>
      intro x y hcard hxy
      cases hF : F x y
      · exfalso
        rcases hjt x y hF with hC0 | ⟨j, hjn, hxj, hjy⟩
        · rw [hxy] at hC0
          exact Bool.noConfusion hC0
        · have hjmem : j ∈ (Finset.range n).filter
              (fun z => C x z = true ∧ C z y = true) :=
            Finset.mem_filter.mpr ⟨Finset.mem_range.mpr hjn, hxj, hjy⟩
          have hpos := Finset.card_pos.mpr ⟨j, hjmem⟩
          omega
      · exact Relation.TransGen.single hF
    | succ N ihN =>
      intro x y hcard hxy
      cases hF : F x y
      · rcases hjt x y hF with hC0 | ⟨j, hjn, hxj, hjy⟩
        · rw [hxy] at hC0
          exact Bool.noConfusion hC0
        · have hjmem : j ∈ (Finset.range n).filter
              (fun z => C x z = true ∧ C z y = true) :=
            Finset.mem_filter.mpr ⟨Finset.mem_range.mpr hjn, hxj, hjy⟩
          have hsub1 : (Finset.range n).filter (fun z => C x z = true ∧ C z j = true) ⊆
              (Finset.range n).filter (fun z => C x z = true ∧ C z y = true) := by
            intro z hz
            rcases Finset.mem_filter.mp hz with ⟨hzr, hz1, hz2⟩
            exact Finset.mem_filter.mpr ⟨hzr, hz1, htrans z j y hz2 hjy⟩
          have hnot1 : j ∉ (Finset.range n).filter
              (fun z => C x z = true ∧ C z j = true) := by
            intro hmem
            have hcc := (Finset.mem_filter.mp hmem).2.2
            rw [hirr j] at hcc
            exact Bool.noConfusion hcc
          have hlt1 := Finset.card_lt_card
            ((Finset.ssubset_iff_of_subset hsub1).mpr ⟨j, hjmem, hnot1⟩)
          have hsub2 : (Finset.range n).filter (fun z => C j z = true ∧ C z y = true) ⊆
              (Finset.range n).filter (fun z => C x z = true ∧ C z y = true) := by
            intro z hz
            rcases Finset.mem_filter.mp hz with ⟨hzr, hz1, hz2⟩
            exact Finset.mem_filter.mpr ⟨hzr, htrans x j z hxj hz1, hz2⟩
          have hnot2 : j ∉ (Finset.range n).filter
              (fun z => C j z = true ∧ C z y = true) := by
            intro hmem
            have hcc := (Finset.mem_filter.mp hmem).2.1
            rw [hirr j] at hcc
            exact Bool.noConfusion hcc
          have hlt2 := Finset.card_lt_card
            ((Finset.ssubset_iff_of_subset hsub2).mpr ⟨j, hjmem, hnot2⟩)
          have h1 := ihN x j (by omega) hxj
          have h2 := ihN j y (by omega) hjy
          exact Relation.TransGen.trans h1 h2
      · exact Relation.TransGen.single hF
  intro x y hxy
  exact main ((Finset.range n).filter
    (fun z => C x z = true ∧ C z y = true)).card x y (Nat.le_refl _) hxy

/-- Function-side order preservation: with in-range, acyclic Stage A edges,
re-closing the compiled (closed, diagonal-cleared, reduced) matrix gives
back exactly the closure of the Stage A matrix. -/
theorem closure_reduce_eq {n : Nat} {A : MatF}
    (hwf : ∀ x y, A x y = true → x < n ∧ y < n)
    (hacyc : ∀ x, ¬ Relation.TransGen (fun a b => A a b = true) x x) :
    ∀ x y, closureF n (reduceF n (clearDiagF n (closureF n A))) x y =
      closureF n A x y := by
  set C := closureF n A with hC
  have hCiff : ∀ x y, C x y = true ↔
      Relation.TransGen (fun a b => A a b = true) x y := closureF_correct hwf
  have hCdiag : ∀ v, C v v = false := by
    intro v
    cases hv : C v v
    · rfl
    · exact absurd ((hCiff v v).mp hv) (hacyc v)
  have hD : clearDiagF n C = C := by
    funext x y
    rw [clearDiagF_spec]
    by_cases hc : x = y ∧ x < n
    · rw [if_pos hc, hc.1]
      exact (hCdiag y).symm
    · rw [if_neg hc]
  rw [hD]
  have hCtrans : ∀ a b c, C a b = true → C b c = true → C a c = true := by
    intro a b c hab hbc
    exact (hCiff a c).mpr
      (Relation.TransGen.trans ((hCiff a b).mp hab) ((hCiff b c).mp hbc))
  have hBJ : Below C (reduceF n C) ∧ Justified n C (reduceF n C) :=
    reduceF_pres n C (List.range n) (fun j hj => List.mem_range.mp hj) C
      (fun x y h => h) (fun x y h => Or.inl h)
  have hFwf : ∀ x y, reduceF n C x y = true → x < n ∧ y < n := by
    intro x y h
    exact transGen_lt hwf ((hCiff x y).mp (hBJ.1 x y h))
  have hFiff : ∀ x y, closureF n (reduceF n C) x y = true ↔
      Relation.TransGen (fun a b => reduceF n C a b = true) x y :=
    closureF_correct hFwf
  have hforward : ∀ x y,
      Relation.TransGen (fun a b => reduceF n C a b = true) x y →
      Relation.TransGen (fun a b => A a b = true) x y := by
    intro x y h
    induction h with
    | single he => exact (hCiff _ _).mp (hBJ.1 _ _ he)
    | tail hp he ih =>
      exact Relation.TransGen.trans ih ((hCiff _ _).mp (hBJ.1 _ _ he))
  have hback : ∀ x y, C x y = true →
      Relation.TransGen (fun a b => reduceF n C a b = true) x y :=
    reduce_keeps_reach hCtrans hCdiag hBJ.1 hBJ.2
  intro x y
  cases h1 : closureF n (reduceF n C) x y
  · cases h2 : C x y
    · rfl
    · exfalso
      have hcontra := (hFiff x y).mpr (hback x y h2)
      rw [h1] at hcontra
      exact Bool.noConfusion hcontra
  · cases h2 : C x y
    · exfalso
      have hTG := hforward x y ((hFiff x y).mp h1)
      have hcontra := (hCiff x y).mpr hTG
      rw [h2] at hcontra
      exact Bool.noConfusion hcontra
    · rfl

/-- Well-formedness of a recorder state: every logged task index is in
range of the registry, and the current index is the placeholder or in
range. -/
def WFS (s : FlowState) : Prop :=
  (∀ d ∈ s.deps, ∀ e ∈ d.2, e.1 < s.task.length) ∧
  (s.index = placeholder ∨ s.index < s.task.length)

theorem wfs_initial : WFS initialFlow := by
  constructor
  · intro d hd
    cases hd
  · exact Or.inl rfl

/-- Every event in a pushed log is the pushed event or an old one. -/
theorem depsPush_mem (res : Nat) (ev : Nat × Bool) :
    ∀ (deps : List (Nat × List (Nat × Bool))) (d : Nat × List (Nat × Bool)),
      d ∈ depsPush res ev deps →
      ∀ e ∈ d.2, e = ev ∨ ∃ d2 ∈ deps, e ∈ d2.2 := by
  intro deps
  induction deps with
  | nil =>
    intro d hd e he
    simp only [depsPush] at hd
    rcases List.mem_cons.mp hd with hd1 | hd2
    · rw [hd1] at he
      rcases List.mem_cons.mp he with he1 | he2
      · exact Or.inl he1
      · cases he2
    · cases hd2
  | cons d0 rest ih =>
    intro d hd e he
    simp only [depsPush] at hd
    by_cases hkey : d0.1 = res
    · rw [if_pos hkey] at hd
      rcases List.mem_cons.mp hd with hd1 | hd2
      · rw [hd1] at he
        rcases List.mem_append.mp he with he1 | he2
        · exact Or.inr ⟨d0, List.mem_cons_self _ _, he1⟩
        · rcases List.mem_cons.mp he2 with he3 | he4
          · exact Or.inl he3
          · cases he4
      · exact Or.inr ⟨d, List.mem_cons_of_mem _ hd2, he⟩
    · rw [if_neg hkey] at hd
      rcases List.mem_cons.mp hd with hd1 | hd2
      · rw [hd1] at he
        exact Or.inr ⟨d0, List.mem_cons_self _ _, he⟩
      · rcases ih d hd2 e he with h1 | ⟨d2, hd2m, hed2⟩
        · exact Or.inl h1
        · exact Or.inr ⟨d2, List.mem_cons_of_mem _ hd2m, hed2⟩

theorem wfs_task (s : FlowState) (v : Nat) (h : WFS s) : WFS (task s v) := by
  rcases h with ⟨hdeps, _⟩
  by_cases hmem : v ∈ s.task
  · have ht : task s v = { s with index := findIndex v s.task } := by
      simp [task, hmem]
    rw [ht]
    exact ⟨hdeps, Or.inr (findIndex_lt_length v s.task hmem)⟩
  · have ht : task s v = { s with index := s.task.length, task := s.task ++ [v] } := by
      simp [task, hmem]
    rw [ht]
    constructor
    · intro d hd e he
      have hlt := hdeps d hd e he
      simp only [List.length_append, List.length_cons, List.length_nil]
      omega
    · refine Or.inr ?_
      simp only [List.length_append, List.length_cons, List.length_nil]
      omega

theorem wfs_ro (s : FlowState) (r : Nat) (t : FlowState) (h : WFS s)
    (hro : ro s r = Except.ok t) : WFS t := by
  unfold ro at hro
  by_cases hidx : s.index = placeholder
  · rw [if_pos hidx] at hro
    exact Except.noConfusion hro
  · rw [if_neg hidx] at hro
    injection hro with ht
    rw [← ht]
    rcases h with ⟨hdeps, hor⟩
    have hlt : s.index < s.task.length := by
      rcases hor with h1 | h1
      · exact absurd h1 hidx
      · exact h1
    constructor
    · intro d hd e he
      rcases depsPush_mem r (s.index, false) s.deps d hd e he with h1 | ⟨d2, hd2, hed2⟩
      · rw [h1]
        exact hlt
      · exact hdeps d2 hd2 e hed2
    · exact Or.inr hlt

theorem wfs_rw (s : FlowState) (r : Nat) (t : FlowState) (h : WFS s)
    (hrw : rw s r = Except.ok t) : WFS t := by
  unfold rw at hrw
  by_cases hidx : s.index = placeholder
  · rw [if_pos hidx] at hrw
    exact Except.noConfusion hrw
  · rw [if_neg hidx] at hrw
    injection hrw with ht
    rw [← ht]
    rcases h with ⟨hdeps, hor⟩
    have hlt : s.index < s.task.length := by
      rcases hor with h1 | h1
      · exact absurd h1 hidx
      · exact h1
    constructor
    · intro d hd e he
      rcases depsPush_mem r (s.index, true) s.deps d hd e he with h1 | ⟨d2, hd2, hed2⟩
      · rw [h1]
        exact hlt
      · exact hdeps d2 hd2 e hed2
    · exact Or.inr hlt

theorem wfs_applyOp (s : FlowState) (op : FlowOp) (t : FlowState) (h : WFS s)
    (happ : applyOp s op = Except.ok t) : WFS t := by
  cases op with
  | task v =>
    injection happ with ht
    rw [← ht]
    exact wfs_task s v h
  | ro r => exact wfs_ro s r t h happ
  | rw r => exact wfs_rw s r t h happ

/-- Every recorder state reachable through the builder API is
well-formed. -/
theorem wfs_applyOps : ∀ (ops : List FlowOp) (s t : FlowState), WFS s →
    applyOps s ops = Except.ok t → WFS t := by
  intro ops
  induction ops with
  | nil =>
    intro s t h happ
    injection happ with ht
    rw [← ht]
    exact h
  | cons op rest ih =>
    intro s t h happ
    simp only [applyOps] at happ
    cases hstep : applyOp s op with
    | ok u =>
      rw [hstep] at happ
      exact ih u t (wfs_applyOp s op u h hstep) happ
    | error e =>
      rw [hstep] at happ
      exact Except.noConfusion happ

/-- Entries set by the edge application of one resource. -/
theorem addEdgesF_spec :
    ∀ (es : List (Nat × Nat)) (m : MatF) (x y : Nat),
      addEdgesF m es x y = true ↔ (m x y = true ∨ (x, y) ∈ es) := by
  intro es
  induction es with
  | nil =>
    intro m x y
    simp [addEdgesF]
  | cons e rest ih =>
    intro m x y
    have hstep : addEdgesF m (e :: rest) = addEdgesF (msetF m e.1 e.2 true) rest := rfl
    rw [hstep, ih]
    unfold msetF
    by_cases hp : x = e.1 ∧ y = e.2
    · rw [if_pos hp]
      constructor
      · intro _
        exact Or.inr (List.mem_cons.mpr (Or.inl (Prod.ext hp.1 hp.2)))
      · intro _
        exact Or.inl rfl
    · rw [if_neg hp]
      constructor
      · intro h
        rcases h with h | h
        · exact Or.inl h
        · exact Or.inr (List.mem_cons_of_mem _ h)
      · intro h
        rcases h with h | h
        · exact Or.inl h
        · rcases List.mem_cons.mp h with h1 | h1
          · exact absurd ⟨congrArg Prod.fst h1, congrArg Prod.snd h1⟩ hp
          · exact Or.inr h1

/-- Entries of the function-side Stage A matrix are exactly the edges some
resource log synthesizes. -/
theorem stageAF_spec :
    ∀ (deps : List (Nat × List (Nat × Bool))) (m : MatF) (x y : Nat),
      (deps.foldl (fun m d => addEdgesF m (synEdges d.2)) m) x y = true ↔
        (m x y = true ∨ ∃ d ∈ deps, (x, y) ∈ synEdges d.2) := by
  intro deps
  induction deps with
  | nil =>
    intro m x y
    simp
  | cons d0 rest ih =>
    intro m x y
    simp only [List.foldl_cons]
    rw [ih, addEdgesF_spec]
    constructor
    · intro h
      rcases h with (h | h) | h
      · exact Or.inl h
      · exact Or.inr ⟨d0, List.mem_cons_self _ _, h⟩
      · rcases h with ⟨d, hd, hmem⟩
        exact Or.inr ⟨d, List.mem_cons_of_mem _ hd, hmem⟩
    · intro h
      rcases h with h | ⟨d, hd, hmem⟩
      · exact Or.inl (Or.inl h)
      · rcases List.mem_cons.mp hd with h1 | h1
        · rw [h1] at hmem
          exact Or.inl (Or.inr hmem)
        · exact Or.inr ⟨d, h1, hmem⟩

theorem stageAF_mem (deps : List (Nat × List (Nat × Bool))) (x y : Nat) :
    stageAF deps x y = true ↔ ∃ d ∈ deps, (x, y) ∈ synEdges d.2 := by
  unfold stageAF
  rw [stageAF_spec]
  constructor
  · intro h
    rcases h with h | h
    · exact Bool.noConfusion h
    · exact h
  · exact Or.inr

/-- In a well-formed state the Stage A matrix only connects in-range task
indices. -/
theorem stageAF_wf (s : FlowState) (hwfs : WFS s) :
    ∀ x y, stageAF s.deps x y = true → x < s.task.length ∧ y < s.task.length := by
  intro x y h
  rcases (stageAF_mem s.deps x y).mp h with ⟨d, hd, hmem⟩
  rcases synAux_between d.2.length d.2 x y hmem with ⟨ea, eb, hs, h1, h2, _⟩
  have hamem : ea ∈ d.2 := hs.subset (List.mem_cons_self _ _)
  have hbmem : eb ∈ d.2 := hs.subset (List.mem_cons_of_mem _ (List.mem_cons_self _ _))
  constructor
  · rw [← h1]
    exact hwfs.1 d hd ea hamem
  · rw [← h2]
    exact hwfs.1 d hd eb hbmem

/-- The list-side Stage A matrix agrees with the function side on
well-formed logs. -/
theorem stageA_commutes (n : Nat) (deps : List (Nat × List (Nat × Bool)))
    (hdeps : ∀ d ∈ deps, ∀ e ∈ d.2, e.1 < n) :
    (stageAEdges n deps).length = n * n ∧
      Agree n (view n (stageAEdges n deps)) (stageAF deps) := by
  unfold stageAEdges stageAF
  refine foldl_commutes n _ _ deps ?_ (List.replicate (n * n) false) (fun _ _ => false)
    (List.length_replicate _ _) ?_
  · intro ed m d hdmem hlen hag
    unfold applyEdges addEdgesF
    refine foldl_commutes n _ _ (synEdges d.2) ?_ ed m hlen hag
    intro ed m e hemem hlen hag
    have hml : (e.1, e.2) ∈ synEdges d.2 := by
      rw [Prod.mk.eta]
      exact hemem
    rcases synAux_between d.2.length d.2 e.1 e.2 hml with ⟨ea, eb, hs, h1, h2, _⟩
    have he1 : e.1 < n := by
      rw [← h1]
      exact hdeps d hdmem ea (hs.subset (List.mem_cons_self _ _))
    have he2 : e.2 < n := by
      rw [← h2]
      exact hdeps d hdmem eb
        (hs.subset (List.mem_cons_of_mem _ (List.mem_cons_self _ _)))
    constructor
    · rw [List.length_set, hlen]
    · intro x y hx hy
      rw [view_set ed e.1 e.2 _ he1 he2 hlen x y hx hy]
      unfold msetF
      by_cases hc : x = e.1 ∧ y = e.2
      · rw [if_pos hc, if_pos hc]
      · rw [if_neg hc, if_neg hc]
        exact hag x y hx hy
  · intro x y hx hy
    exact mget_replicate (n * n) (x * n + y)

/-- C6: order preservation (round trip).  For every recorder state
reachable through the builder API whose synthesized Stage A relation is
acyclic, recomputing the transitive closure on the final reduced graph
agrees, entrywise over the task indices, with the transitive closure of
the pre-reduction Stage A matrix. -/
theorem flow_order_preservation : ∀ (ops : List FlowOp) (s : FlowState),
    applyOps initialFlow ops = Except.ok s →
    (∀ x, ¬ Relation.TransGen (SynEdge s) x x) →
    ∀ x y, x < s.task.length → y < s.task.length →
      reachAt s x y = synClosureAt s x y := by
  intro ops s hreach hacyc x y hx hy
  set n := s.task.length with hn
  have hwfs : WFS s := wfs_applyOps ops initialFlow s wfs_initial hreach
  have hdeps : ∀ d ∈ s.deps, ∀ e ∈ d.2, e.1 < n := hwfs.1
  have hA := stageA_commutes n s.deps hdeps
  have hC := closure_commutes n (stageAEdges n s.deps) (stageAF s.deps) hA.1 hA.2
  have hD := clearDiag_commutes n (closure n (stageAEdges n s.deps)) _ hC.1 hC.2
  have hR := reduce_commutes n
    (clearDiag n (closure n (stageAEdges n s.deps))) _ hD.1 hD.2
  have hC2 := closure_commutes n
    (reduce n (clearDiag n (closure n (stageAEdges n s.deps)))) _ hR.1 hR.2
  have hwfF : ∀ a b, stageAF s.deps a b = true → a < n ∧ b < n := stageAF_wf s hwfs
  have hacycF : ∀ v, ¬ Relation.TransGen
      (fun a b => stageAF s.deps a b = true) v v := by
    intro v hTG
    refine hacyc v (Relation.TransGen.mono ?_ hTG)
    intro a b hab
    exact (stageAF_mem s.deps a b).mp hab
  have hview1 : reachAt s x y =
      view n (closure n (reduce n (clearDiag n (closure n (stageAEdges n s.deps))))) x y :=
    rfl
  have hview2 : synClosureAt s x y = view n (closure n (stageAEdges n s.deps)) x y := rfl
  rw [hview1, hview2, hC2.2 x y hx hy, hC.2 x y hx hy]
  exact closure_reduce_eq hwfF hacycF x y

/-- Witness for C6 at the diamond state: its Stage A relation strictly
increases task indices, hence is acyclic, and the recomputed closure of
the reduced graph agrees with the closure of the Stage A matrix at the
reachable pair 0, 3. -/
theorem flow_order_preservation_witness :
    reachAt diamondState 0 3 = synClosureAt diamondState 0 3 := by
  have hedge : ∀ a b, SynEdge diamondState a b → a < b := by
    intro a b h
    obtain ⟨d, hd, hmem⟩ := h
    have hdeq : diamondState.deps =
        [(7, [(0, true), (1, false), (2, false), (3, true)])] := rfl
    rw [hdeq] at hd
    rcases List.mem_cons.mp hd with hd1 | hd1
    · rw [hd1] at hmem
      have hsyn : synEdges [(0, true), (1, false), (2, false), (3, true)] =
          [(0, 1), (1, 3), (0, 2), (2, 3)] := rfl
      rw [hsyn] at hmem
      simp only [List.mem_cons] at hmem
      rcases hmem with h1 | h1 | h1 | h1 | h1
      · injection h1 with ha hb
        rw [ha, hb]
        decide
      · injection h1 with ha hb
        rw [ha, hb]
        decide
      · injection h1 with ha hb
        rw [ha, hb]
        decide
      · injection h1 with ha hb
        rw [ha, hb]
        decide
      · cases h1
    · cases hd1
  have hacyc : ∀ x, ¬ Relation.TransGen (SynEdge diamondState) x x := by
    intro x hx
    have hlt : ∀ p q, Relation.TransGen (SynEdge diamondState) p q → p < q := by
      intro p q hpq
      induction hpq with
      | single he => exact hedge _ _ he
      | tail _ he ih => exact Nat.lt_trans ih (hedge _ _ he)
    exact absurd (hlt x x hx) (Nat.lt_irrefl x)
  exact flow_order_preservation diamondOps diamondState rfl hacyc 0 3
    (by decide) (by decide)

end EnttFlow
